import Mathlib

/-!
Verification of the protocol/format core of the VPS dashboard service
(`app.py`): the bounded reverse-tail reader `tail_file`, the Bedrock/RakNet
discovery probe `bedrock_status`, and the WireGuard dump parser inside
`vpn_status`.  Files and datagrams are modelled as lists of byte values
(`List Nat`, each element < 256 where produced by real I/O); text is
`List Char`.  Fallible I/O is modelled with `Option` / explicit failure
markers so every Python `try`/`except` path is visible.
-/

namespace VPSDash

/-! ## Python text primitives

`utf8Step` performs one step of CPython's incremental UTF-8 decoder: given
the lead byte and the next (up to) three bytes of the input it returns the
emitted characters and how many extra bytes beyond the lead were consumed.
Invalid sequences emit U+FFFD when `repl` is true (`errors="replace"`, used
by `tail_file`) and nothing when `repl` is false (`errors="ignore"`, used by
`bedrock_status`); following CPython, a maximal valid prefix of a multi-byte
sequence is consumed per error and decoding never fails. -/

/-- Check that an optional byte is a continuation byte within `[lo, hi]`. -/
def contB (lo hi : Nat) (c : Option Nat) : Bool :=
  match c with
  | some x => decide (lo ≤ x) && decide (x ≤ hi)
  | none => false

/-- Value of an optional byte (only read after `contB` succeeded). -/
def cval (c : Option Nat) : Nat := c.getD 0

/-- Characters emitted for one invalid sequence: U+FFFD for
`errors="replace"`, nothing for `errors="ignore"`. -/
def repc (repl : Bool) : List Char := if repl then [Char.ofNat 0xFFFD] else []

/-- One step of CPython's UTF-8 decoder with a lossy error handler. -/
def utf8Step (repl : Bool) (b : Nat) (c1 c2 c3 : Option Nat) : List Char × Nat :=
  if b < 0x80 then ([Char.ofNat b], 0)
  else if b < 0xC2 then (repc repl, 0)
  else if b ≤ 0xDF then
    if contB 0x80 0xBF c1 then
      ([Char.ofNat ((b - 0xC0) * 0x40 + (cval c1 - 0x80))], 1)
    else (repc repl, 0)
  else if b ≤ 0xEF then
    if contB (if b = 0xE0 then 0xA0 else 0x80) (if b = 0xED then 0x9F else 0xBF) c1 then
      if contB 0x80 0xBF c2 then
        ([Char.ofNat ((b - 0xE0) * 0x1000 + (cval c1 - 0x80) * 0x40 + (cval c2 - 0x80))], 2)
      else (repc repl, 1)
    else (repc repl, 0)
  else if b ≤ 0xF4 then
    if contB (if b = 0xF0 then 0x90 else 0x80) (if b = 0xF4 then 0x8F else 0xBF) c1 then
      if contB 0x80 0xBF c2 then
        if contB 0x80 0xBF c3 then
          ([Char.ofNat ((b - 0xF0) * 0x40000 + (cval c1 - 0x80) * 0x1000 +
              (cval c2 - 0x80) * 0x40 + (cval c3 - 0x80))], 3)
        else (repc repl, 2)
      else (repc repl, 1)
    else (repc repl, 0)
  else (repc repl, 0)

/-- Fuel-indexed UTF-8 decoding loop (structural recursion on the fuel so
that it evaluates inside the kernel; the fuel is unconsumed exactly when it
is at least the input length, see `utf8DecodeF_fuel`). -/
def utf8DecodeF (repl : Bool) : Nat → List Nat → List Char
  | _, [] => []
  | 0, _ :: _ => []
  | fuel + 1, b :: rest =>
    let s := utf8Step repl b rest[0]? rest[1]? rest[2]?
    s.1 ++ utf8DecodeF repl fuel (rest.drop s.2)

/-- `bytes.decode("utf-8", errors="replace")` (`repl = true`) and
`bytes.decode("utf-8", errors="ignore")` (`repl = false`). -/
def utf8Decode (repl : Bool) (l : List Nat) : List Char :=
  utf8DecodeF repl l.length l

/-- Characters at which Python `str.splitlines` breaks a line. -/
def isLineBreak (c : Char) : Bool :=
  c = '\n' || c = '\r' || c = '\x0b' || c = '\x0c' ||
  c = '\x1c' || c = '\x1d' || c = '\x1e' || c = '\u0085' ||
  c = ' ' || c = ' '

/-- Worker for Python `str.splitlines`: `acc` holds the current line in
reverse; `"\r\n"` counts as a single break; a trailing break does not open
an empty final line. -/
def pySplitlinesAux (acc : List Char) : List Char → List (List Char)
  | [] => if acc.isEmpty then [] else [acc.reverse]
  | [c] => if isLineBreak c then [acc.reverse] else [(c :: acc).reverse]
  | c :: r :: rest =>
    if isLineBreak c then
      if c = '\r' && r = '\n' then acc.reverse :: pySplitlinesAux [] rest
      else acc.reverse :: pySplitlinesAux [] (r :: rest)
    else pySplitlinesAux (c :: acc) (r :: rest)

/-- Python `str.splitlines`. -/
def pySplitlines (s : List Char) : List (List Char) := pySplitlinesAux [] s

/-- Worker for Python `str.split(sep)` with a one-character separator:
every occurrence splits, so `"".split(sep) == [""]`. -/
def splitSepAux (sep : Char) (acc : List Char) : List Char → List (List Char)
  | [] => [acc.reverse]
  | c :: rest =>
    if c = sep then acc.reverse :: splitSepAux sep [] rest
    else splitSepAux sep (c :: acc) rest

/-- Python `str.split(sep)` for a one-character separator. -/
def splitSep (sep : Char) (l : List Char) : List (List Char) := splitSepAux sep [] l

/-- Characters stripped by Python `str.strip()` (Unicode whitespace). -/
def isPySpace (c : Char) : Bool :=
  c = '\t' || c = '\n' || c = '\x0b' || c = '\x0c' || c = '\r' ||
  c = '\x1c' || c = '\x1d' || c = '\x1e' || c = '\x1f' || c = ' ' ||
  c = '\u0085' || c = ' ' || c = ' ' ||
  (' ' ≤ c && c ≤ ' ') ||
  c = ' ' || c = ' ' || c = ' ' || c = ' ' || c = '　'

/-- Python `s.strip("\x00")`: NUL characters removed from both ends. -/
def stripNulBoth (s : List Char) : List Char :=
  ((s.dropWhile (· = '\x00')).reverse.dropWhile (· = '\x00')).reverse

/-- Trailing-only NUL strip; this follows the wording of the specification
("trailing NUL bytes stripped"), for comparison with the source's
`strip("\x00")` which strips both ends. -/
def stripNulTrailing (s : List Char) : List Char :=
  (s.reverse.dropWhile (· = '\x00')).reverse

/-- Python `str.isdigit` restricted to the ASCII alphabet the probed
protocols emit: nonempty and all decimal digits (exactly the strings the
source feeds to `int(...)` without raising). -/
def isdigitS (s : List Char) : Bool := !s.isEmpty && s.all Char.isDigit

/-- `int(s)` for an all-digit ASCII string. -/
def parseNat (s : List Char) : Nat :=
  s.foldl (fun a c => a * 10 + (c.toNat - 48)) 0

/-- `int(p[i]) if p[i].isdigit() else 0`, the source's defensive numeric
field parse. -/
def pyNum (s : List Char) : Nat := if isdigitS s then parseNat s else 0

/-! ## `tail_file` -/

/-- Python `lines[-n:]`: the last `n` elements for `n ≥ 1`, everything for
`n = 0` (since `lines[-0:]` is `lines[0:]`). -/
def pySliceLast (n : Nat) (l : List α) : List α :=
  if n = 0 then l else l.drop (l.length - n)

/-- The last `n` elements of a list. -/
def takeLast (l : List α) (n : Nat) : List α := l.drop (l.length - n)

/-- Outcome of the backward-scan loop of `tail_file`: an I/O failure
(modelling an exception raised by `seek`/`read`), fuel exhaustion (a
modelling artefact, proved unreachable for positive block sizes), or the
accumulated bytes. -/
inductive LoopOut where
  | ioError : LoopOut
  | fuelOut : LoopOut
  | ok : List Nat → LoopOut
deriving DecidableEq

/-- The backward-scan loop of `tail_file`:

    while size > 0 and data.count(b"\n") <= n:
        step = min(block, size)
        size -= step
        f.seek(size)
        data = f.read(step) + data

`content` is the file's bytes, `fail` (when `some k`) makes the `k`-th read
raise, and the fuel is instantiated with the file size by the caller (each
iteration shrinks `size` by `min block size ≥ 1` for `block ≥ 1`, so the
fuel never runs out; see the termination theorem). -/
def tailLoop (content : List Nat) (n block : Nat) (fail : Option Nat) :
    Nat → Nat → Nat → List Nat → LoopOut
  | fuel, size, i, data =>
    if size = 0 ∨ n < data.count 10 then .ok data
    else
      match fuel with
      | 0 => .fuelOut
      | fuel + 1 =>
        if fail = some i then .ioError
        else
          let step := min block size
          let size2 := size - step
          tailLoop content n block fail fuel size2 (i + 1)
            (((content.drop size2).take step) ++ data)

/-- A file as seen by `tail_file`: either unopenable (missing file,
permission error) or byte content together with an optional index of a
read call that raises mid-scan. -/
inductive FileState where
  | absent : FileState
  | content : List Nat → Option Nat → FileState

/-- The scan-decode-slice pipeline of `tail_file` for an arbitrary block
size (the source fixes `block = 1024`), with no I/O failure. -/
def tailRun (block : Nat) (bytes : List Nat) (n : Nat) : List (List Char) :=
  match tailLoop bytes n block none bytes.length bytes.length 0 [] with
  | .ok data => pySliceLast n (pySplitlines (utf8Decode true data))
  | _ => []

/-- `tail_file(path, n)`:

    try:
        with open(path, "rb") as f:
            f.seek(0, os.SEEK_END)
            size = f.tell()
            block = 1024
            data = b""
            while size > 0 and data.count(b"\n") <= n:
                step = min(block, size)
                size -= step
                f.seek(size)
                data = f.read(step) + data
            lines = data.decode("utf-8", errors="replace").splitlines()
            return lines[-n:]
    except Exception:
        return []
-/
def tail_file (fs : FileState) (n : Nat) : List (List Char) :=
  match fs with
  | .absent => []
  | .content bytes fail =>
    match tailLoop bytes n 1024 fail bytes.length bytes.length 0 [] with
    | .ok data => pySliceLast n (pySplitlines (utf8Decode true data))
    | _ => []

/-! ## `bedrock_status` -/

/-- The RakNet offline-message magic constant:
`b"\x00\xff\xff\x00\xfe\xfe\xfe\xfe\xfd\xfd\xfd\xfd\x12\x34\x56\x78"`. -/
def magicBytes : List Nat :=
  [0x00, 0xFF, 0xFF, 0x00, 0xFE, 0xFE, 0xFE, 0xFE,
   0xFD, 0xFD, 0xFD, 0xFD, 0x12, 0x34, 0x56, 0x78]

/-- `struct.pack(">Q", x)`: 8 bytes, big endian (defined on the low 64 bits;
both call sites pass values below `2^64`). -/
def packQ (x : Nat) : List Nat :=
  [x / 2 ^ 56 % 256, x / 2 ^ 48 % 256, x / 2 ^ 40 % 256, x / 2 ^ 32 % 256,
   x / 2 ^ 24 % 256, x / 2 ^ 16 % 256, x / 2 ^ 8 % 256, x % 256]

/-- The UNCONNECTED_PING datagram:
`b"\x01" + struct.pack(">Q", int(time.time()*1000)) + magic + struct.pack(">Q", random.getrandbits(64))`. -/
def buildPing (tMillis guid : Nat) : List Nat :=
  1 :: (packQ tMillis ++ (magicBytes ++ packQ guid))

/-- Worker for Python `bytes.find`: index of the first occurrence. -/
def bytesFindAux (needle : List Nat) : Nat → List Nat → Option Nat
  | i, [] => if needle.isPrefixOf [] then some i else none
  | i, h :: t =>
    if needle.isPrefixOf (h :: t) then some i else bytesFindAux needle (i + 1) t

/-- Python `hay.find(needle)` (with `none` for `-1`). -/
def bytesFind (hay needle : List Nat) : Option Nat := bytesFindAux needle 0 hay

/-- Result dictionary of `bedrock_status`; a `none` field models an absent
dictionary key. -/
structure PingResult where
  online : Bool
  motd : Option (List Char) := none
  version : Option (List Char) := none
  players : Option (List (List Char)) := none
  player_count : Option Nat := none
  max_players : Option Nat := none
deriving DecidableEq

/-- The ordered field list the source computes from a pong that contains the
magic constant at index `idx`:
`data[idx+len(magic):].decode("utf-8", errors="ignore").strip("\x00").split(";")`. -/
def pongParts (data : List Nat) (idx : Nat) : List (List Char) :=
  splitSep ';' (stripNulBoth (utf8Decode false (data.drop (idx + magicBytes.length))))

/-- The field list as worded by the specification: decoded with invalid
sequences replaced by U+FFFD and only trailing NULs stripped.  Stated for
comparison with `pongParts`, which is what the source computes. -/
def pongPartsClaimed (data : List Nat) (idx : Nat) : List (List Char) :=
  splitSep ';' (stripNulTrailing (utf8Decode true (data.drop (idx + magicBytes.length))))

/-- Response handling of `bedrock_status`.  The argument models the outcome
of the socket calls: `none` when socket setup, `sendto` or `recvfrom` raised
(timeout, unreachable host, DNS failure), `some data` for a received
datagram.

    data, _ = s.recvfrom(2048)
    s.close()
    if not data or data[0] != 0x1c:
        return {"online": False}
    idx = data.find(magic)
    if idx == -1:
        return {"online": True}
    sid = data[idx+len(magic):].decode("utf-8", errors="ignore").strip("\x00")
    parts = sid.split(";")
    motd       = parts[1] if len(parts) > 1 else "Minecraft Bedrock"
    version    = parts[3] if len(parts) > 3 else "Bedrock"
    online     = int(parts[4]) if len(parts) > 4 and parts[4].isdigit() else 0
    max_players= int(parts[5]) if len(parts) > 5 and parts[5].isdigit() else 0
    return {"online": True, "motd": motd, "version": version, "players": [],
            "player_count": online, "max_players": max_players}
-/
def bedrock_status (recv : Option (List Nat)) : PingResult :=
  match recv with
  | none => { online := false }
  | some data =>
    match data with
    | [] => { online := false }
    | b :: _ =>
      if b ≠ 0x1C then { online := false }
      else
        match bytesFind data magicBytes with
        | none => { online := true }
        | some idx =>
          let parts := pongParts data idx
          { online := true
            motd := some (parts.getD 1 "Minecraft Bedrock".data)
            version := some (parts.getD 3 "Bedrock".data)
            players := some []
            player_count := some (match parts[4]? with
              | some s => if isdigitS s then parseNat s else 0
              | none => 0)
            max_players := some (match parts[5]? with
              | some s => if isdigitS s then parseNat s else 0
              | none => 0) }

/-! ## `vpn_status` (WireGuard dump parsing) -/

/-- Interface record parsed from line 0 of `wg show <iface> dump`:

    parts = lines[0].split('\t')
    iface_info = {"public_key": parts[1] if len(parts) > 1 else "",
                  "listen_port": int(parts[2]) if len(parts) > 2 and parts[2].isdigit() else None}
-/
structure WgIface where
  public_key : List Char
  listen_port : Option Nat
deriving DecidableEq

/-- Peer record of the result; `endpoint`/`allowed_ips` are `[]` when the
dump carried the `(none)` sentinel. -/
structure WgPeer where
  peer : List Char
  endpoint : List Char
  allowed_ips : List Char
  latest_handshake : Nat
  handshake_age_sec : Option Int
  transfer_rx : Nat
  transfer_tx : Nat
  persistent_keepalive : Option Nat
deriving DecidableEq

/-- The token `"(none)"`. -/
def noneTok : List Char := "(none)".data

/-- Parse the interface line. -/
def parseIface (l : List Char) : WgIface :=
  let parts := splitSep '\t' l
  { public_key := parts.getD 1 []
    listen_port := match parts[2]? with
      | some s => if isdigitS s then some (parseNat s) else none
      | none => none }

/-- Parse one peer line; `none` models the `except: continue` taken when an
index past the end is accessed (fewer than 8 tab-separated fields):

    p = l.split('\t')
    try:
        pk      = p[0]
        endpoint= p[2] if p[2] != "(none)" else ""
        allowed = p[3] if p[3] != "(none)" else ""
        hs      = int(p[4]) if p[4].isdigit() else 0
        rx      = int(p[5]) if p[5].isdigit() else 0
        tx      = int(p[6]) if p[6].isdigit() else 0
        keep    = int(p[7]) if p[7].isdigit() else 0
        peers.append({... "handshake_age_sec": (now - hs) if hs else None,
                      ... "persistent_keepalive": keep or None})
    except Exception:
        continue
-/
def parsePeerLine (now : Int) (l : List Char) : Option WgPeer :=
  let p := splitSep '\t' l
  match p[0]?, p[2]?, p[3]?, p[4]?, p[5]?, p[6]?, p[7]? with
  | some pk, some ep, some al, some hs, some rx, some tx, some keep =>
    let hsv := pyNum hs
    let keepv := pyNum keep
    some {
      peer := pk
      endpoint := if ep = noneTok then [] else ep
      allowed_ips := if al = noneTok then [] else al
      latest_handshake := hsv
      handshake_age_sec := if hsv ≠ 0 then some (now - (hsv : Int)) else none
      transfer_rx := pyNum rx
      transfer_tx := pyNum tx
      persistent_keepalive := if keepv = 0 then none else some keepv }
  | _, _, _, _, _, _, _ => none

/-- Parsed dump (`"type"`/`"iface"` keys are constants, omitted); `iface`
is `none` when the result dictionary has no `"interface"` key. -/
structure WgStatus where
  running : Bool
  iface : Option WgIface
  peers : List WgPeer
deriving DecidableEq

/-- Dump-parsing path of `vpn_status` (`raw` non-empty; the empty-`raw`
systemctl fallback never reaches the parser):

    lines = [l for l in raw.splitlines() if l.strip()]
    if not lines:
        return {"type":"wireguard","iface":iface,"running":False,"peers":[]}
    parts = lines[0].split('\t')
    iface_info = {...}
    peers=[]
    now=int(time.time())
    for l in lines[1:]: ...
    return {"type":"wireguard","iface":iface,"running": True,
            "interface": iface_info, "peers": peers}
-/
def vpn_parse (raw : List Char) (now : Int) : WgStatus :=
  let lines := (pySplitlines raw).filter (fun l => !l.all isPySpace)
  match lines with
  | [] => { running := false, iface := none, peers := [] }
  | l0 :: rest =>
    { running := true
      iface := some (parseIface l0)
      peers := rest.filterMap (parsePeerLine now) }

/-- The all-absent offline result `{"online": False}`. -/
def pingOffline : PingResult := { online := false }

/-- The result dictionary built by `bedrock_status` from the positional
field list of a valid pong. -/
def pongResultFromParts (parts : List (List Char)) : PingResult :=
  { online := true
    motd := some (parts.getD 1 "Minecraft Bedrock".data)
    version := some (parts.getD 3 "Bedrock".data)
    players := some []
    player_count := some (match parts[4]? with
      | some s => if isdigitS s then parseNat s else 0
      | none => 0)
    max_players := some (match parts[5]? with
      | some s => if isdigitS s then parseNat s else 0
      | none => 0) }

/-- A file built from newline-separated lines (no terminator after the
last line), used to state claims about dumps given as a list of lines. -/
def joinNl : List (List Char) → List Char
  | [] => []
  | [l] => l
  | l :: ls => l ++ '\n' :: joinNl ls

/-- Prepend characters to the first piece of a split result (used to relate
a split of `p ++ s` to the split of `s` when `p` contains no separator). -/
def prependFirst (p : List Char) : List (List Char) → List (List Char)
  | [] => if p.isEmpty then [] else [p]
  | l :: ls => (p ++ l) :: ls

/-! ## Lemmas: the UTF-8 decoder -/

theorem utf8DecodeF_fuel (r : Bool) :
    ∀ f1 f2 (l : List Nat), l.length ≤ f1 → l.length ≤ f2 →
      utf8DecodeF r f1 l = utf8DecodeF r f2 l := by
  intro f1
  induction f1 using Nat.strong_induction_on with
  | _ f1 ih =>
    intro f2 l h1 h2
    cases l with
    | nil => cases f1 <;> cases f2 <;> rfl
    | cons b rest =>
      cases f1 with
      | zero => simp at h1
      | succ f1 =>
        cases f2 with
        | zero => simp at h2
        | succ f2 =>
          simp only [utf8DecodeF]
          congr 1
          have hd : ∀ m, (rest.drop m).length ≤ rest.length := by
            intro m; simp [List.length_drop]
          simp only [List.length_cons] at h1 h2
          exact ih f1 (Nat.lt_succ_self f1) f2 _
            (le_trans (hd _) (by omega)) (le_trans (hd _) (by omega))

theorem utf8Decode_nil (r : Bool) : utf8Decode r [] = [] := rfl

theorem utf8Decode_cons (r : Bool) (b : Nat) (rest : List Nat) :
    utf8Decode r (b :: rest) =
      (utf8Step r b rest[0]? rest[1]? rest[2]?).1 ++
        utf8Decode r (rest.drop (utf8Step r b rest[0]? rest[1]? rest[2]?).2) := by
  show utf8DecodeF r (rest.length + 1) (b :: rest) = _
  simp only [utf8DecodeF]
  congr 1
  exact utf8DecodeF_fuel r rest.length _ _
    (by simp [List.length_drop]) (le_refl _)

theorem contB_none (lo hi : Nat) : contB lo hi none = false := rfl

theorem utf8Step_snd_le (r : Bool) (b : Nat) (c1 c2 c3 : Option Nat) :
    (utf8Step r b c1 c2 c3).2 ≤ 3 := by
  unfold utf8Step; split_ifs <;> simp

theorem utf8Step_none1 (r : Bool) (b : Nat) (c2 c3 : Option Nat) :
    (utf8Step r b none c2 c3).2 = 0 := by
  unfold utf8Step; split_ifs <;> simp_all [contB]

theorem utf8Step_none2 (r : Bool) (b : Nat) (c1 c3 : Option Nat) :
    (utf8Step r b c1 none c3).2 ≤ 1 := by
  unfold utf8Step; split_ifs <;> simp_all [contB]

theorem utf8Step_none3 (r : Bool) (b : Nat) (c1 c2 : Option Nat) :
    (utf8Step r b c1 c2 none).2 ≤ 2 := by
  unfold utf8Step; split_ifs <;> simp_all [contB]

theorem contB_ten (lo hi : Nat) (h : 0x80 ≤ lo) : contB lo hi (some 10) = false := by
  simp only [contB, Bool.and_eq_false_iff, decide_eq_false_iff_not]
  left; omega

theorem utf8Step_ten1 (r : Bool) (b : Nat) (c2 c3 : Option Nat) :
    utf8Step r b (some 10) c2 c3 = utf8Step r b none none none := by
  have h1 : ∀ hi, contB 0x80 hi (some 10) = false := fun hi => contB_ten _ _ (by omega)
  have h2 : contB (if b = 0xE0 then 0xA0 else 0x80) (if b = 0xED then 0x9F else 0xBF)
      (some 10) = false := by split_ifs <;> exact contB_ten _ _ (by omega)
  have h3 : contB (if b = 0xF0 then 0x90 else 0x80) (if b = 0xF4 then 0x8F else 0xBF)
      (some 10) = false := by split_ifs <;> exact contB_ten _ _ (by omega)
  unfold utf8Step
  simp only [h1, h2, h3, contB_none, Bool.false_eq_true, if_false]

theorem utf8Step_ten2 (r : Bool) (b : Nat) (c1 c3 : Option Nat) :
    utf8Step r b c1 (some 10) c3 = utf8Step r b c1 none none := by
  have h1 : ∀ hi, contB 0x80 hi (some 10) = false := fun hi => contB_ten _ _ (by omega)
  unfold utf8Step
  simp only [h1, contB_none, Bool.false_eq_true, if_false]

theorem utf8Step_ten3 (r : Bool) (b : Nat) (c1 c2 : Option Nat) :
    utf8Step r b c1 c2 (some 10) = utf8Step r b c1 c2 none := by
  have h1 : ∀ hi, contB 0x80 hi (some 10) = false := fun hi => contB_ten _ _ (by omega)
  unfold utf8Step
  simp only [h1, contB_none, Bool.false_eq_true, if_false]

theorem utf8Step_not_ten1 (r : Bool) (b : Nat) (c1 c2 c3 : Option Nat)
    (hm : 1 ≤ (utf8Step r b c1 c2 c3).2) : c1 ≠ some 10 := by
  intro hc; subst hc
  rw [utf8Step_ten1, utf8Step_none1] at hm
  omega

theorem utf8Step_not_ten2 (r : Bool) (b : Nat) (c1 c2 c3 : Option Nat)
    (hm : 2 ≤ (utf8Step r b c1 c2 c3).2) : c2 ≠ some 10 := by
  intro hc; subst hc
  rw [utf8Step_ten2] at hm
  have := utf8Step_none2 r b c1 none
  omega

theorem utf8Step_not_ten3 (r : Bool) (b : Nat) (c1 c2 c3 : Option Nat)
    (hm : 3 ≤ (utf8Step r b c1 c2 c3).2) : c3 ≠ some 10 := by
  intro hc; subst hc
  rw [utf8Step_ten3] at hm
  have := utf8Step_none3 r b c1 c2
  omega

theorem utf8Step_ten_lead (r : Bool) (c1 c2 c3 : Option Nat) :
    utf8Step r 10 c1 c2 c3 = (['\n'], 0) := by
  unfold utf8Step
  rw [if_pos (by omega)]

theorem toNat_ofNat_valid {v : Nat} (h : v.isValidChar) :
    (Char.ofNat v).toNat = v := by
  rw [Char.ofNat, dif_pos h]; rfl

theorem ofNat_ne_nl {v : Nat} (h : 128 ≤ v) : Char.ofNat v ≠ '\n' := by
  intro he
  by_cases hv : v.isValidChar
  · have ht := congrArg Char.toNat he
    rw [toNat_ofNat_valid hv] at ht
    have h10 : ('\n').toNat = 10 := rfl
    rw [h10] at ht; omega
  · have h0 : (Char.ofNat v).toNat = 0 := by rw [Char.ofNat, dif_neg hv]; rfl
    rw [he] at h0
    exact absurd h0 (by decide)

theorem ofNat_ascii_ne_nl : ∀ b : Nat, b < 128 → b ≠ 10 → Char.ofNat b ≠ '\n' := by
  decide

theorem nl_not_mem_repc : ∀ r : Bool, '\n' ∉ repc r := by decide

theorem contB_true {lo hi : Nat} {c : Option Nat} (h : contB lo hi c = true) :
    lo ≤ cval c ∧ cval c ≤ hi := by
  cases c with
  | none => simp [contB] at h
  | some x =>
    simp only [contB, Bool.and_eq_true, decide_eq_true_eq] at h
    simpa [cval] using h

theorem utf8Step_no_nl (r : Bool) {b : Nat} (hb : b ≠ 10) (c1 c2 c3 : Option Nat) :
    '\n' ∉ (utf8Step r b c1 c2 c3).1 := by
  unfold utf8Step
  by_cases h1 : b < 0x80
  · rw [if_pos h1]
    simp only [List.mem_singleton]
    intro he; exact ofNat_ascii_ne_nl b h1 hb he.symm
  · rw [if_neg h1]
    by_cases h2 : b < 0xC2
    · rw [if_pos h2]; exact nl_not_mem_repc r
    · rw [if_neg h2]
      by_cases h3 : b ≤ 0xDF
      · rw [if_pos h3]
        by_cases h4 : contB 0x80 0xBF c1 = true
        · rw [if_pos h4]
          simp only [List.mem_singleton]
          intro he
          have hx := contB_true h4
          exact ofNat_ne_nl (by omega) he.symm
        · rw [if_neg h4]; exact nl_not_mem_repc r
      · rw [if_neg h3]
        by_cases h5 : b ≤ 0xEF
        · rw [if_pos h5]
          by_cases h6 : contB (if b = 0xE0 then 0xA0 else 0x80)
              (if b = 0xED then 0x9F else 0xBF) c1 = true
          · rw [if_pos h6]
            by_cases h7 : contB 0x80 0xBF c2 = true
            · rw [if_pos h7]
              simp only [List.mem_singleton]
              intro he
              have hx := contB_true h6
              have hy := contB_true h7
              refine ofNat_ne_nl ?_ he.symm
              by_cases hbe : b = 0xE0
              · rw [if_pos hbe] at hx; omega
              · rw [if_neg hbe] at hx; omega
            · rw [if_neg h7]; exact nl_not_mem_repc r
          · rw [if_neg h6]; exact nl_not_mem_repc r
        · rw [if_neg h5]
          by_cases h8 : b ≤ 0xF4
          · rw [if_pos h8]
            by_cases h9 : contB (if b = 0xF0 then 0x90 else 0x80)
                (if b = 0xF4 then 0x8F else 0xBF) c1 = true
            · rw [if_pos h9]
              by_cases h10 : contB 0x80 0xBF c2 = true
              · rw [if_pos h10]
                by_cases h11 : contB 0x80 0xBF c3 = true
                · rw [if_pos h11]
                  simp only [List.mem_singleton]
                  intro he
                  have hx := contB_true h9
                  have hy := contB_true h10
                  have hz := contB_true h11
                  refine ofNat_ne_nl ?_ he.symm
                  by_cases hbf : b = 0xF0
                  · rw [if_pos hbf] at hx; omega
                  · rw [if_neg hbf] at hx; omega
                · rw [if_neg h11]; exact nl_not_mem_repc r
              · rw [if_neg h10]; exact nl_not_mem_repc r
            · rw [if_neg h9]; exact nl_not_mem_repc r
          · rw [if_neg h8]; exact nl_not_mem_repc r

theorem utf8Step_snd_le_length (r : Bool) (b : Nat) (rest : List Nat) :
    (utf8Step r b rest[0]? rest[1]? rest[2]?).2 ≤ rest.length := by
  cases rest with
  | nil => simp [utf8Step_none1]
  | cons a1 t1 =>
    cases t1 with
    | nil => simpa using utf8Step_none2 r b (some a1) none
    | cons a2 t2 =>
      cases t2 with
      | nil => simpa using utf8Step_none3 r b (some a1) (some a2)
      | cons a3 t3 =>
        have := utf8Step_snd_le r b (a1 :: a2 :: a3 :: t3)[0]?
          (a1 :: a2 :: a3 :: t3)[1]? (a1 :: a2 :: a3 :: t3)[2]?
        simp only [List.length_cons]
        omega

theorem utf8Step_take_count (r : Bool) (b : Nat) (rest : List Nat) :
    (rest.take (utf8Step r b rest[0]? rest[1]? rest[2]?).2).count 10 = 0 := by
  rw [List.count_eq_zero]
  intro hmem
  obtain ⟨j, hj, hget⟩ := List.getElem_of_mem hmem
  have hjlt : j < (utf8Step r b rest[0]? rest[1]? rest[2]?).2 := by
    have := List.length_take (utf8Step r b rest[0]? rest[1]? rest[2]?).2 rest
    omega
  have hjr : j < rest.length := by
    have := utf8Step_snd_le_length r b rest
    omega
  have hval : rest[j]? = some 10 := by
    rw [List.getElem?_eq_getElem hjr]
    have := List.getElem?_take_of_lt (l := rest) (n := (utf8Step r b rest[0]? rest[1]? rest[2]?).2) (m := j) hjlt
    rw [List.getElem?_eq_getElem hjr, List.getElem?_eq_getElem hj] at this
    simp only [Option.some.injEq] at this
    rw [← this, hget]
  have hle3 := utf8Step_snd_le r b rest[0]? rest[1]? rest[2]?
  have hj3 : j = 0 ∨ j = 1 ∨ j = 2 := by omega
  rcases hj3 with rfl | rfl | rfl
  · exact utf8Step_not_ten1 r b rest[0]? rest[1]? rest[2]? (by omega) hval
  · exact utf8Step_not_ten2 r b rest[0]? rest[1]? rest[2]? (by omega) hval
  · exact utf8Step_not_ten3 r b rest[0]? rest[1]? rest[2]? (by omega) hval

theorem utf8Decode_count_nl (r : Bool) (l : List Nat) :
    (utf8Decode r l).count '\n' = l.count 10 := by
  suffices H : ∀ n (l : List Nat), l.length ≤ n →
      (utf8Decode r l).count '\n' = l.count 10 from H l.length l (le_refl _)
  intro n
  induction n with
  | zero =>
    intro l hl
    have : l = [] := List.eq_nil_of_length_eq_zero (Nat.le_zero.mp hl)
    subst this; rfl
  | succ n ih =>
    intro l hl
    cases l with
    | nil => rfl
    | cons b rest =>
      rw [utf8Decode_cons, List.count_append]
      by_cases hb : b = 10
      · subst hb
        rw [utf8Step_ten_lead]
        simp only [List.drop_zero, List.count_cons_self, List.count_nil]
        rw [ih rest (by simp only [List.length_cons] at hl; omega)]
        omega
      · have hnol := utf8Step_no_nl r hb rest[0]? rest[1]? rest[2]?
        rw [List.count_eq_zero.mpr hnol, List.count_cons_of_ne (fun h => hb h.symm)]
        rw [ih (rest.drop _) (by simp only [List.length_cons] at hl; simp only [List.length_drop]; omega)]
        have hsplit := List.take_append_drop (utf8Step r b rest[0]? rest[1]? rest[2]?).2 rest
        conv_rhs => rw [← hsplit]
        rw [List.count_append, utf8Step_take_count]

theorem utf8Decode_append_ten (r : Bool) (A B : List Nat) :
    utf8Decode r (A ++ 10 :: B) = utf8Decode r A ++ '\n' :: utf8Decode r B := by
  suffices H : ∀ n (A : List Nat), A.length ≤ n → ∀ B,
      utf8Decode r (A ++ 10 :: B) = utf8Decode r A ++ '\n' :: utf8Decode r B from
    H A.length A (le_refl _) B
  intro n
  induction n with
  | zero =>
    intro A hA B
    have : A = [] := List.eq_nil_of_length_eq_zero (Nat.le_zero.mp hA)
    subst this
    rw [List.nil_append, utf8Decode_cons, utf8Step_ten_lead]
    simp [utf8Decode_nil]
  | succ n ih =>
    intro A hA B
    cases A with
    | nil =>
      rw [List.nil_append, utf8Decode_cons, utf8Step_ten_lead]
      simp [utf8Decode_nil]
    | cons b A1 =>
      rw [List.cons_append, utf8Decode_cons, utf8Decode_cons r b A1]
      have hA1 : A1.length ≤ n := by simp only [List.length_cons] at hA; omega
      have key : utf8Step r b (A1 ++ 10 :: B)[0]? (A1 ++ 10 :: B)[1]? (A1 ++ 10 :: B)[2]? =
          utf8Step r b A1[0]? A1[1]? A1[2]? ∧
          (utf8Step r b A1[0]? A1[1]? A1[2]?).2 ≤ A1.length := by
        cases A1 with
        | nil =>
          refine ⟨?_, ?_⟩
          · simp only [List.nil_append, List.getElem?_cons_zero, List.getElem?_nil]
            rw [utf8Step_ten1]
          · simp [utf8Step_none1]
        | cons a1 A2 =>
          cases A2 with
          | nil =>
            refine ⟨?_, ?_⟩
            · simp only [List.cons_append, List.nil_append, List.getElem?_cons_zero,
                List.getElem?_cons_succ, List.getElem?_nil]
              rw [utf8Step_ten2]
            · simpa using utf8Step_none2 r b (some a1) none
          | cons a2 A3 =>
            cases A3 with
            | nil =>
              refine ⟨?_, ?_⟩
              · simp only [List.cons_append, List.nil_append, List.getElem?_cons_zero,
                  List.getElem?_cons_succ, List.getElem?_nil]
                rw [utf8Step_ten3]
              · simpa using utf8Step_none3 r b (some a1) (some a2)
            | cons a3 A4 =>
              refine ⟨?_, ?_⟩
              · simp only [List.cons_append, List.getElem?_cons_zero,
                  List.getElem?_cons_succ]
              · simp only [List.getElem?_cons_zero, List.getElem?_cons_succ]
                have := utf8Step_snd_le r b (some a1) (some a2) (some a3)
                simp only [List.length_cons]
                omega
      rw [key.1, List.drop_append_of_le_length key.2,
        ih (A1.drop _) (by simp only [List.length_drop]; omega) B]
      simp [List.append_assoc]

/-! ## Lemmas: splitlines and last-n slicing -/

theorem pySplitlinesAux_append_nl :
    ∀ n (P : List Char), P.length ≤ n → ∀ acc S,
      pySplitlinesAux acc (P ++ '\n' :: S) =
        pySplitlinesAux acc (P ++ ['\n']) ++ pySplitlinesAux [] S := by
  intro n
  induction n with
  | zero =>
    intro P hP acc S
    have : P = [] := List.eq_nil_of_length_eq_zero (Nat.le_zero.mp hP)
    subst this
    cases S with
    | nil => simp [pySplitlinesAux, isLineBreak]
    | cons s S1 => simp [pySplitlinesAux, isLineBreak]
  | succ n ih =>
    intro P hP acc S
    cases P with
    | nil =>
      cases S with
      | nil => simp [pySplitlinesAux, isLineBreak]
      | cons s S1 => simp [pySplitlinesAux, isLineBreak]
    | cons c P1 =>
      simp only [List.length_cons] at hP
      cases P1 with
      | nil =>
        by_cases hbrk : isLineBreak c = true
        · by_cases hcr : c = '\r'
          · subst hcr
            simp [pySplitlinesAux, isLineBreak]
          · have h1 := ih [] (by omega) [] S
            simp only [List.nil_append] at h1
            simp [pySplitlinesAux, hbrk, hcr, h1,
              show isLineBreak '\n' = true from rfl]
        · have h1 := ih [] (by omega) (c :: acc) S
          simp only [List.nil_append] at h1
          simp [pySplitlinesAux, hbrk, h1,
            show isLineBreak '\n' = true from rfl]
      | cons p P2 =>
        by_cases hbrk : isLineBreak c = true
        · by_cases hcnd : (c = '\r' ∧ p = '\n')
          · obtain ⟨hc, hp⟩ := hcnd
            subst hc; subst hp
            have h1 := ih P2 (by simp only [List.length_cons] at hP; omega) [] S
            simp [pySplitlinesAux, h1, isLineBreak]
          · have h2 : (decide (c = '\r') && decide (p = '\n')) = false := by
              rcases Decidable.em (c = '\r') with hc | hc
              · rcases Decidable.em (p = '\n') with hp | hp
                · exact absurd ⟨hc, hp⟩ hcnd
                · simp [hp]
              · simp [hc]
            have h1 := ih (p :: P2)
              (by simp only [List.length_cons] at hP ⊢; omega) [] S
            simp only [List.cons_append] at h1
            simp [pySplitlinesAux, hbrk, h2, h1]
        · have h1 := ih (p :: P2)
            (by simp only [List.length_cons] at hP ⊢; omega) (c :: acc) S
          simp only [List.cons_append] at h1
          simp [pySplitlinesAux, hbrk, h1]

theorem pySplitlines_append_nl (P S : List Char) :
    pySplitlines (P ++ '\n' :: S) = pySplitlines (P ++ ['\n']) ++ pySplitlines S :=
  pySplitlinesAux_append_nl P.length P (le_refl _) [] S

theorem pySplitlinesAux_length_ge_count :
    ∀ n (T : List Char), T.length ≤ n → ∀ acc,
      T.count '\n' ≤ (pySplitlinesAux acc T).length := by
  intro n
  induction n with
  | zero =>
    intro T hT acc
    have : T = [] := List.eq_nil_of_length_eq_zero (Nat.le_zero.mp hT)
    subst this
    simp [pySplitlinesAux]
  | succ n ih =>
    intro T hT acc
    cases T with
    | nil => simp [pySplitlinesAux]
    | cons c T1 =>
      simp only [List.length_cons] at hT
      cases T1 with
      | nil =>
        simp only [pySplitlinesAux]
        have h1 : List.count '\n' [c] ≤ 1 := by
          rcases Decidable.em (c = '\n') with hc | hc
          · subst hc; simp
          · simp [List.count_cons, hc]
        split_ifs <;> simpa using h1
      | cons r T2 =>
        simp only [pySplitlinesAux]
        by_cases hbrk : isLineBreak c = true
        · rw [if_pos hbrk]
          by_cases hcnd : (decide (c = '\r') && decide (r = '\n')) = true
          · rw [if_pos hcnd]
            simp only [Bool.and_eq_true, decide_eq_true_eq] at hcnd
            obtain ⟨hc, hr⟩ := hcnd
            subst hc; subst hr
            rw [List.count_cons_of_ne (by decide : ('\n' : Char) ≠ '\r'),
              List.count_cons_self]
            have hih := ih T2 (by simp only [List.length_cons] at hT; omega) []
            simp only [List.length_cons]
            omega
          · rw [if_neg (by simpa using hcnd)]
            have hih := ih (r :: T2)
              (by simp only [List.length_cons] at hT ⊢; omega) []
            simp only [List.length_cons]
            rcases Decidable.em (c = '\n') with hc | hc
            · subst hc
              rw [List.count_cons_self]
              omega
            · rw [List.count_cons_of_ne (fun h => hc h.symm)]
              omega
        · rw [if_neg (by simp [hbrk])]
          have hih := ih (r :: T2)
            (by simp only [List.length_cons] at hT ⊢; omega) (c :: acc)
          have hc : c ≠ '\n' := by
            intro he; subst he; simp [isLineBreak] at hbrk
          rw [List.count_cons_of_ne (fun h => hc h.symm)]
          exact hih

theorem pySplitlines_length_ge_count (T : List Char) :
    T.count '\n' ≤ (pySplitlines T).length :=
  pySplitlinesAux_length_ge_count T.length T (le_refl _) []

theorem takeLast_append {B : List α} (A : List α) {n : Nat} (h : n ≤ B.length) :
    takeLast (A ++ B) n = takeLast B n := by
  unfold takeLast
  rw [List.length_append]
  have he : A.length + B.length - n = A.length + (B.length - n) := by omega
  rw [he, ← List.drop_drop, List.drop_left]

theorem takeLast_length (l : List α) (n : Nat) :
    (takeLast l n).length = min n l.length := by
  unfold takeLast
  rw [List.length_drop]
  omega

/-! ## Lemmas: the backward-scan loop -/

theorem tailLoop_none_post (content : List Nat) (n block : Nat) (hb : 1 ≤ block) :
    ∀ fuel size i data, size ≤ fuel → data = content.drop size →
      ∃ s, s ≤ size ∧
        tailLoop content n block none fuel size i data = .ok (content.drop s) ∧
        (s = 0 ∨ n < (content.drop s).count 10) := by
  intro fuel
  induction fuel with
  | zero =>
    intro size i data hsz hdata
    have hs0 : size = 0 := by omega
    subst hs0
    refine ⟨0, le_refl _, ?_, Or.inl rfl⟩
    rw [tailLoop]
    simp [hdata]
  | succ fuel ih =>
    intro size i data hsz hdata
    by_cases hstop : size = 0 ∨ n < data.count 10
    · refine ⟨size, le_refl _, ?_, ?_⟩
      · rw [tailLoop, if_pos hstop, hdata]
      · rcases hstop with h0 | hcnt
        · exact Or.inl h0
        · exact Or.inr (hdata ▸ hcnt)
    · push_neg at hstop
      obtain ⟨hs0, hcnt⟩ := hstop
      have hstep1 : 1 ≤ min block size := by omega
      have hstep2 : min block size ≤ size := by omega
      have hinv : (content.drop (size - min block size)).take (min block size) ++ data =
          content.drop (size - min block size) := by
        rw [hdata]
        have hdd : (content.drop (size - min block size)).drop (min block size) =
            content.drop size := by
          rw [List.drop_drop]
          congr 1
          omega
        conv_rhs => rw [← List.take_append_drop (min block size)
          (content.drop (size - min block size))]
        rw [hdd]
      obtain ⟨s, hsle, hres, hpost⟩ := ih (size - min block size) (i + 1)
        ((content.drop (size - min block size)).take (min block size) ++ data)
        (by omega) hinv
      refine ⟨s, by omega, ?_, hpost⟩
      rw [tailLoop, if_neg (by push_neg; exact ⟨hs0, hcnt⟩)]
      simpa using hres

theorem tailLoop_no_fuelOut (content : List Nat) (n block : Nat) (fail : Option Nat)
    (hb : 1 ≤ block) :
    ∀ fuel size i data, size ≤ fuel →
      tailLoop content n block fail fuel size i data ≠ .fuelOut := by
  intro fuel
  induction fuel with
  | zero =>
    intro size i data hsz
    have hs0 : size = 0 := by omega
    subst hs0
    rw [tailLoop]
    simp
  | succ fuel ih =>
    intro size i data hsz
    rw [tailLoop]
    by_cases hstop : size = 0 ∨ n < data.count 10
    · rw [if_pos hstop]; simp
    · rw [if_neg hstop]
      push_neg at hstop
      by_cases hfail : fail = some i
      · simp only [hfail, if_pos rfl]
        simp
      · simp only [if_neg hfail]
        exact ih _ (i + 1) _ (by omega)

theorem exists_first_ten (D : List Nat) (h : 1 ≤ D.count 10) :
    ∃ D1 D2, D = D1 ++ 10 :: D2 ∧ D2.count 10 = D.count 10 - 1 := by
  induction D with
  | nil => simp at h
  | cons d Dt ih =>
    by_cases hd : d = 10
    · subst hd
      exact ⟨[], Dt, rfl, by rw [List.count_cons_self]; omega⟩
    · have h' : 1 ≤ Dt.count 10 := by
        rwa [List.count_cons_of_ne (fun hh => hd hh.symm)] at h
      obtain ⟨D1, D2, hsplit, hc⟩ := ih h'
      refine ⟨d :: D1, D2, by rw [hsplit]; rfl, ?_⟩
      rw [List.count_cons_of_ne (fun hh => hd hh.symm), hc]

theorem pySliceLast_pos {n : Nat} (hn : 1 ≤ n) (l : List α) :
    pySliceLast n l = takeLast l n := by
  unfold pySliceLast takeLast
  rw [if_neg (by omega)]

theorem tailRun_eq (block n : Nat) (hb : 1 ≤ block) (hn : 1 ≤ n) (bytes : List Nat) :
    tailRun block bytes n = takeLast (pySplitlines (utf8Decode true bytes)) n := by
  obtain ⟨s, hsle, hres, hpost⟩ := tailLoop_none_post bytes n block hb
    bytes.length bytes.length 0 [] (le_refl _) (by simp)
  unfold tailRun
  rw [hres]
  show pySliceLast n (pySplitlines (utf8Decode true (bytes.drop s))) =
    takeLast (pySplitlines (utf8Decode true bytes)) n
  rw [pySliceLast_pos hn]
  rcases hpost with rfl | hcount
  · rw [List.drop_zero]
  · obtain ⟨D1, D2, hD, hcount2⟩ := exists_first_ten (bytes.drop s) (by omega)
    have hlen : n ≤ (pySplitlines (utf8Decode true D2)).length := by
      refine le_trans ?_ (pySplitlines_length_ge_count _)
      rw [utf8Decode_count_nl]
      omega
    have hbytes : bytes = (bytes.take s ++ D1) ++ 10 :: D2 := by
      rw [List.append_assoc, ← hD, List.take_append_drop]
    calc takeLast (pySplitlines (utf8Decode true (bytes.drop s))) n
        = takeLast (pySplitlines (utf8Decode true D2)) n := by
          rw [hD, utf8Decode_append_ten, pySplitlines_append_nl]
          exact takeLast_append _ hlen
      _ = takeLast (pySplitlines (utf8Decode true bytes)) n := by
          conv_rhs => rw [hbytes]
          rw [utf8Decode_append_ten, pySplitlines_append_nl]
          exact (takeLast_append _ hlen).symm

/-- C1: for every readable file and every `n ≥ 1`, and for every positive
block size (the source uses 1024), the tail scan returns exactly the last
`min n L` lines of the file, oldest first, where the file's lines are
`splitlines` of its lossily decoded contents: the result is `takeLast` of
all the lines, whose length is `min n L` — in particular the result does
not depend on the block size. -/
theorem claim_C1_tail_correct (bytes : List Nat) (n block : Nat)
    (hb : 1 ≤ block) (hn : 1 ≤ n) :
    tailRun block bytes n = takeLast (pySplitlines (utf8Decode true bytes)) n ∧
    tail_file (FileState.content bytes none) n =
      takeLast (pySplitlines (utf8Decode true bytes)) n ∧
    (takeLast (pySplitlines (utf8Decode true bytes)) n).length =
      min n (pySplitlines (utf8Decode true bytes)).length := by
  refine ⟨tailRun_eq block n hb hn bytes, ?_, takeLast_length _ _⟩
  have heq : tail_file (FileState.content bytes none) n = tailRun 1024 bytes n := by
    unfold tail_file tailRun
    rfl
  rw [heq]
  exact tailRun_eq 1024 n (by omega) hn bytes

theorem claim_C1_witness :
    1 ≤ 2 ∧ 1 ≤ 1 ∧
      (tailRun 2 [97, 10, 98] 1 =
          takeLast (pySplitlines (utf8Decode true [97, 10, 98])) 1 ∧
        tail_file (FileState.content [97, 10, 98] none) 1 =
          takeLast (pySplitlines (utf8Decode true [97, 10, 98])) 1 ∧
        (takeLast (pySplitlines (utf8Decode true [97, 10, 98])) 1).length =
          min 1 (pySplitlines (utf8Decode true [97, 10, 98])).length) :=
  ⟨by decide, by decide, claim_C1_tail_correct [97, 10, 98] 1 2 (by decide) (by decide)⟩

/-- C10: the backward-scan loop of `tail_file` (block size 1024) always
terminates — it never exhausts its fuel, which bounds the number of
iterations by the file size, because each iteration reads
`min 1024 size ≥ 1` bytes — and on the no-failure path it stops in a state
where the accumulated buffer is the suffix `content.drop s` of the file
with either `s = 0` (start of file reached) or more than `n` newline bytes
accumulated. -/
theorem claim_C10_tail_loop_terminates (content : List Nat) (n : Nat)
    (fail : Option Nat) :
    tailLoop content n 1024 fail content.length content.length 0 [] ≠
      LoopOut.fuelOut ∧
    (∃ s, s ≤ content.length ∧
      tailLoop content n 1024 none content.length content.length 0 [] =
        LoopOut.ok (content.drop s) ∧
      (s = 0 ∨ n < (content.drop s).count 10)) :=
  ⟨tailLoop_no_fuelOut content n 1024 fail (by omega) _ _ 0 [] (le_refl _),
   tailLoop_none_post content n 1024 (by omega) _ _ 0 [] (le_refl _) (by simp)⟩

/-- C8: `tail_file` is total and its failure is total: an unopenable file
yields `[]`, an I/O error at any step of the scan yields `[]` (never a
partial result), and an empty file also yields `[]`, indistinguishable
from failure. -/
theorem claim_C8_tail_total_failure (n : Nat) (bytes : List Nat)
    (fail : Option Nat) :
    tail_file FileState.absent n = [] ∧
    tail_file (FileState.content [] fail) n = [] ∧
    (tailLoop bytes n 1024 fail bytes.length bytes.length 0 [] =
        LoopOut.ioError →
      tail_file (FileState.content bytes fail) n = []) ∧
    (bytes ≠ [] → tail_file (FileState.content bytes (some 0)) n = []) := by
  refine ⟨rfl, ?_, ?_, ?_⟩
  · have h : tailLoop [] n 1024 fail 0 0 0 [] = .ok [] := by
      rw [tailLoop]; simp
    show (match tailLoop [] n 1024 fail ([] : List Nat).length
        ([] : List Nat).length 0 [] with
      | .ok data => pySliceLast n (pySplitlines (utf8Decode true data))
      | _ => ([] : List (List Char))) = []
    rw [show (([] : List Nat).length) = 0 from rfl, h]
    show pySliceLast n [] = []
    unfold pySliceLast
    split_ifs <;> simp
  · intro hio
    show (match tailLoop bytes n 1024 fail bytes.length bytes.length 0 [] with
      | .ok data => pySliceLast n (pySplitlines (utf8Decode true data))
      | _ => ([] : List (List Char))) = []
    rw [hio]
  · intro hne
    cases bytes with
    | nil => exact absurd rfl hne
    | cons b bs =>
      have h : tailLoop (b :: bs) n 1024 (some 0) (b :: bs).length
          (b :: bs).length 0 [] = .ioError := by
        simp only [List.length_cons]
        rw [tailLoop]
        rw [if_neg (by simp)]
        rfl
      show (match tailLoop (b :: bs) n 1024 (some 0) (b :: bs).length
          (b :: bs).length 0 [] with
        | .ok data => pySliceLast n (pySplitlines (utf8Decode true data))
        | _ => ([] : List (List Char))) = []
      rw [h]

theorem claim_C8_witness :
    tail_file FileState.absent 5 = [] ∧
    tail_file (FileState.content [] (some 3)) 5 = [] ∧
    tail_file (FileState.content [97, 10] (some 0)) 5 = [] ∧
    tail_file (FileState.content [97, 10] (some 0)) 5 = [] :=
  ⟨(claim_C8_tail_total_failure 5 [97, 10] (some 3)).1,
   (claim_C8_tail_total_failure 5 [97, 10] (some 3)).2.1,
   (claim_C8_tail_total_failure 5 [97, 10] (some 0)).2.2.1 (by decide),
   (claim_C8_tail_total_failure 5 [97, 10] (some 0)).2.2.2 (by decide)⟩

/-! ## Claims about the discovery probe -/

/-- C3: the ping datagram is
`0x01 || 8-byte big-endian timestamp-millis || 16-byte magic || 8-byte client id`:
33 bytes total, first byte `0x01`, the magic constant
`00 FF FF 00 FE FE FE FE FD FD FD FD 12 34 56 78` exactly at offsets 9..24,
and `packQ` is a genuine 8-byte big-endian encoding (bytes < 256 whose
big-endian value is the argument modulo `2^64`). -/
theorem claim_C3_ping_layout (t g : Nat) :
    (buildPing t g).length = 33 ∧
    (buildPing t g)[0]? = some 0x01 ∧
    ((buildPing t g).drop 9).take 16 = magicBytes ∧
    magicBytes = [0x00, 0xFF, 0xFF, 0x00, 0xFE, 0xFE, 0xFE, 0xFE,
      0xFD, 0xFD, 0xFD, 0xFD, 0x12, 0x34, 0x56, 0x78] ∧
    ((buildPing t g).drop 1).take 8 = packQ t ∧
    ((buildPing t g).drop 25).take 8 = packQ g ∧
    (packQ t).length = 8 ∧
    (∀ x ∈ packQ t, x < 256) ∧
    (packQ t).foldl (fun a b => a * 256 + b) 0 = t % 2 ^ 64 := by
  refine ⟨rfl, rfl, rfl, rfl, rfl, rfl, rfl, ?_, ?_⟩
  · intro x hx
    simp only [packQ, List.mem_cons, List.not_mem_nil, or_false] at hx
    rcases hx with rfl | rfl | rfl | rfl | rfl | rfl | rfl | rfl <;> omega
  · show ((((((((0 * 256 + t / 2 ^ 56 % 256) * 256 + t / 2 ^ 48 % 256) * 256 +
      t / 2 ^ 40 % 256) * 256 + t / 2 ^ 32 % 256) * 256 + t / 2 ^ 24 % 256) * 256 +
      t / 2 ^ 16 % 256) * 256 + t / 2 ^ 8 % 256) * 256 + t % 256) = t % 2 ^ 64
    omega

/-- C6: a pong whose first byte is `0x1C` but in which the magic constant
does not occur as a contiguous substring yields `{online: true}` with every
other field absent. -/
theorem claim_C6_magic_missing (d : List Nat)
    (hhead : d[0]? = some 0x1C) (hfind : bytesFind d magicBytes = none) :
    bedrock_status (some d) = { online := true } := by
  cases d with
  | nil => simp at hhead
  | cons b rest =>
    simp only [List.getElem?_cons_zero, Option.some.injEq] at hhead
    subst hhead
    simp only [bedrock_status]
    rw [if_neg (fun hc => hc rfl), hfind]

theorem claim_C6_witness :
    (([0x1C] : List Nat)[0]? = some 0x1C) ∧
    bytesFind [0x1C] magicBytes = none ∧
    bedrock_status (some [0x1C]) = { online := true } :=
  ⟨by decide, by decide, claim_C6_magic_missing [0x1C] (by decide) (by decide)⟩

/-- C7: the probe is total (a total function of the modelled socket
outcome): socket failure/timeout, an empty reply, and a reply whose first
byte is not `0x1C` all yield `{online: false}`, and whenever `online` is
false every other field is absent. -/
theorem claim_C7_probe_total (recv : Option (List Nat)) :
    (recv = none → bedrock_status recv = pingOffline) ∧
    (recv = some [] → bedrock_status recv = pingOffline) ∧
    (∀ b rest, recv = some (b :: rest) → b ≠ 0x1C →
      bedrock_status recv = pingOffline) ∧
    ((bedrock_status recv).online = false → bedrock_status recv = pingOffline) := by
  refine ⟨?_, ?_, ?_, ?_⟩
  · rintro rfl; rfl
  · rintro rfl; rfl
  · rintro b rest rfl hb
    simp only [bedrock_status]
    rw [if_pos hb]
    rfl
  · intro honline
    cases recv with
    | none => rfl
    | some data =>
      cases data with
      | nil => rfl
      | cons b rest =>
        by_cases hb : b = 0x1C
        · subst hb
          exfalso
          revert honline
          simp only [bedrock_status]
          rw [if_neg (fun hc => hc rfl)]
          cases hfind : bytesFind (0x1C :: rest) magicBytes <;> simp
        · simp only [bedrock_status]
          rw [if_pos hb]
          rfl

theorem claim_C7_witness :
    bedrock_status none = pingOffline ∧
    bedrock_status (some []) = pingOffline ∧
    bedrock_status (some [5, 7]) = pingOffline ∧
    bedrock_status (some [9]) = pingOffline :=
  ⟨(claim_C7_probe_total none).1 rfl,
   (claim_C7_probe_total (some [])).2.1 rfl,
   (claim_C7_probe_total (some [5, 7])).2.2.1 5 [7] rfl (by decide),
   (claim_C7_probe_total (some [9])).2.2.2 (by decide)⟩

/-- C2, counterexample: the claim says the bytes after the magic are
decoded with invalid sequences replaced by U+FFFD and only trailing NULs
stripped; the source decodes with `errors="ignore"` (invalid bytes
dropped) and `strip("\x00")` (both ends).  On the pong
`1C || magic || 00 FF 41` the two disagree: the source computes the field
list `["A"]`, the claimed pipeline computes `["\x00�A"]`. -/
theorem claim_C2_counterexample :
    (((0x1C : Nat) :: magicBytes ++ [0x00, 0xFF, 0x41])[0]? = some 0x1C) ∧
    bytesFind (0x1C :: magicBytes ++ [0x00, 0xFF, 0x41]) magicBytes = some 1 ∧
    pongParts (0x1C :: magicBytes ++ [0x00, 0xFF, 0x41]) 1 ≠
      pongPartsClaimed (0x1C :: magicBytes ++ [0x00, 0xFF, 0x41]) 1 := by
  refine ⟨by decide, by decide, by decide⟩

/-- C2, amended: for every pong whose first byte is `0x1C` and which
contains the magic constant (first occurrence at `idx`), the bytes after
the magic are decoded as UTF-8 with invalid byte sequences dropped
(`errors="ignore"`, decoding never fatal), NUL characters stripped from
both ends, and the text split on `;` into the ordered field list from
which the result is built positionally. -/
theorem claim_C2_pong_fields (data : List Nat) (idx : Nat)
    (hhead : data[0]? = some 0x1C)
    (hfind : bytesFind data magicBytes = some idx) :
    pongParts data idx =
      splitSep ';' (stripNulBoth (utf8Decode false (data.drop (idx + 16)))) ∧
    bedrock_status (some data) = pongResultFromParts (pongParts data idx) := by
  constructor
  · rfl
  · cases data with
    | nil => simp at hhead
    | cons b rest =>
      simp only [List.getElem?_cons_zero, Option.some.injEq] at hhead
      subst hhead
      simp only [bedrock_status]
      rw [if_neg (fun hc => hc rfl), hfind]
      rfl

theorem claim_C2_witness :
    ((0x1C :: magicBytes ++ [0x41] : List Nat)[0]? = some 0x1C) ∧
    bytesFind (0x1C :: magicBytes ++ [0x41]) magicBytes = some 1 ∧
    (pongParts (0x1C :: magicBytes ++ [0x41]) 1 =
        splitSep ';' (stripNulBoth (utf8Decode false
          ((0x1C :: magicBytes ++ [0x41]).drop (1 + 16)))) ∧
      bedrock_status (some (0x1C :: magicBytes ++ [0x41])) =
        pongResultFromParts (pongParts (0x1C :: magicBytes ++ [0x41]) 1)) :=
  ⟨by decide, by decide,
   claim_C2_pong_fields (0x1C :: magicBytes ++ [0x41]) 1 (by decide) (by decide)⟩

/-! ## Lemmas: the dump parser -/

theorem pySplitlinesAux_no_break (A : List Char)
    (hA : ∀ c ∈ A, isLineBreak c = false) :
    ∀ acc s, pySplitlinesAux acc (A ++ s) = pySplitlinesAux (A.reverse ++ acc) s := by
  induction A with
  | nil => intro acc s; simp
  | cons c A1 ih =>
    intro acc s
    have hc : isLineBreak c = false := hA c (List.mem_cons_self c A1)
    have hA1 : ∀ x ∈ A1, isLineBreak x = false :=
      fun x hx => hA x (List.mem_cons_of_mem c hx)
    cases h : A1 ++ s with
    | nil =>
      obtain ⟨hA1n, hsn⟩ := List.append_eq_nil.mp h
      subst hA1n; subst hsn
      simp [pySplitlinesAux, hc]
    | cons x xs =>
      have hstep : pySplitlinesAux acc (c :: (A1 ++ s)) =
          pySplitlinesAux (c :: acc) (A1 ++ s) := by
        rw [h]
        simp [pySplitlinesAux, hc]
      rw [List.cons_append, hstep, ih hA1 (c :: acc) s]
      simp [List.append_assoc]

theorem pySplitlinesAux_acc :
    ∀ n (s : List Char), s.length ≤ n → ∀ acc,
      pySplitlinesAux acc s = prependFirst acc.reverse (pySplitlinesAux [] s) := by
  intro n
  induction n with
  | zero =>
    intro s hs acc
    have : s = [] := List.eq_nil_of_length_eq_zero (Nat.le_zero.mp hs)
    subst this
    by_cases ha : acc = []
    · subst ha; rfl
    · simp [pySplitlinesAux, prependFirst, ha]
  | succ n ih =>
    intro s hs acc
    cases s with
    | nil =>
      by_cases ha : acc = []
      · subst ha; rfl
      · simp [pySplitlinesAux, prependFirst, ha]
    | cons c s1 =>
      cases s1 with
      | nil =>
        by_cases hc : isLineBreak c = true
        · simp [pySplitlinesAux, hc, prependFirst]
        · simp [pySplitlinesAux, hc, prependFirst]
      | cons r s2 =>
        by_cases hc : isLineBreak c = true
        · by_cases hcr : (decide (c = '\r') && decide (r = '\n')) = true
          · simp [pySplitlinesAux, hc, hcr, prependFirst]
          · simp [pySplitlinesAux, hc, hcr, prependFirst]
        · have h1 := ih (r :: s2)
            (by simp only [List.length_cons] at hs ⊢; omega) (c :: acc)
          have h2 := ih (r :: s2)
            (by simp only [List.length_cons] at hs ⊢; omega) [c]
          have hstep : pySplitlinesAux acc (c :: r :: s2) =
              pySplitlinesAux (c :: acc) (r :: s2) := by
            simp [pySplitlinesAux, hc]
          have hstep0 : pySplitlinesAux [] (c :: r :: s2) =
              pySplitlinesAux [c] (r :: s2) := by
            simp [pySplitlinesAux, hc]
          rw [hstep, hstep0, h1, h2]
          cases hX : pySplitlinesAux [] (r :: s2) with
          | nil => simp [prependFirst, List.append_assoc]
          | cons m ms => simp [prependFirst, List.append_assoc]

theorem pySplitlines_prepend_nosep (pk : List Char)
    (hb : ∀ c ∈ pk, isLineBreak c = false) (s : List Char) :
    pySplitlines (pk ++ s) = prependFirst pk (pySplitlines s) := by
  unfold pySplitlines
  rw [pySplitlinesAux_no_break pk hb [] s, List.append_nil,
    pySplitlinesAux_acc s.length s (le_refl _) pk.reverse,
    List.reverse_reverse]

theorem pySplitlines_tab_cons (rest : List Char) :
    ∃ fl rls, pySplitlines ('\t' :: rest) = ('\t' :: fl) :: rls := by
  have h : pySplitlines ('\t' :: rest) = prependFirst ['\t'] (pySplitlines rest) :=
    pySplitlines_prepend_nosep ['\t'] (by decide) rest
  cases hM : pySplitlines rest with
  | nil => exact ⟨[], [], by rw [h, hM]; rfl⟩
  | cons m ms => exact ⟨m, ms, by rw [h, hM]; rfl⟩

theorem splitSepAux_no_sep (sep : Char) (A : List Char) (hA : ∀ c ∈ A, c ≠ sep) :
    ∀ acc s, splitSepAux sep acc (A ++ s) = splitSepAux sep (A.reverse ++ acc) s := by
  induction A with
  | nil => intro acc s; simp
  | cons c A1 ih =>
    intro acc s
    have hc : c ≠ sep := hA c (List.mem_cons_self c A1)
    have hA1 : ∀ x ∈ A1, x ≠ sep := fun x hx => hA x (List.mem_cons_of_mem c hx)
    rw [List.cons_append]
    show (if c = sep then _ else splitSepAux sep (c :: acc) (A1 ++ s)) = _
    rw [if_neg hc, ih hA1 (c :: acc) s]
    simp [List.append_assoc]

theorem splitSep_nosep_tab (pk fl : List Char) (hA : ∀ c ∈ pk, c ≠ '\t') :
    splitSep '\t' (pk ++ '\t' :: fl) = pk :: splitSep '\t' fl := by
  unfold splitSep
  rw [splitSepAux_no_sep '\t' pk hA [] ('\t' :: fl), List.append_nil]
  show (if '\t' = '\t' then pk.reverse.reverse :: splitSepAux '\t' [] fl
    else _) = _
  rw [if_pos rfl, List.reverse_reverse]

theorem parsePeerLine_short {now : Int} {l : List Char}
    (h : (splitSep '\t' l).length < 8) : parsePeerLine now l = none := by
  have h7 : (splitSep '\t' l)[7]? = none := List.getElem?_eq_none (by omega)
  unfold parsePeerLine
  dsimp only
  split <;> first | rfl | simp_all

theorem pySplitlines_joinNl :
    ∀ ls : List (List Char), (∀ l ∈ ls, l ≠ []) →
      (∀ l ∈ ls, ∀ c ∈ l, isLineBreak c = false) →
      pySplitlines (joinNl ls) = ls := by
  intro ls
  induction ls with
  | nil => intro _ _; rfl
  | cons l ls1 ih =>
    intro hne hnb
    cases ls1 with
    | nil =>
      show pySplitlines l = [l]
      have h := pySplitlinesAux_no_break l (hnb l (by simp)) [] []
      rw [List.append_nil, List.append_nil] at h
      unfold pySplitlines
      rw [h]
      have hl : l ≠ [] := hne l (by simp)
      simp [pySplitlinesAux, List.isEmpty_iff, hl]
    | cons l2 ls2 =>
      rw [show joinNl (l :: l2 :: ls2) = l ++ '\n' :: joinNl (l2 :: ls2) from rfl,
        pySplitlines_append_nl,
        ih (fun x hx => hne x (List.mem_cons_of_mem l hx))
          (fun x hx => hnb x (List.mem_cons_of_mem l hx))]
      have hsing : pySplitlines (l ++ ['\n']) = [l] := by
        unfold pySplitlines
        rw [pySplitlinesAux_no_break l (hnb l (by simp)) [] ['\n'], List.append_nil]
        simp [pySplitlinesAux, show isLineBreak '\n' = true from rfl]
      rw [hsing]
      rfl

/-! ## Claims about the dump parser -/

/-- C4: for every parsed peer record, the `(none)` sentinel in the
endpoint/allowed-IPs fields maps to absent (the empty string), numeric
fields are parsed as non-negative integers exactly when the token is
purely numeric and are 0 otherwise, `keepalive == 0` maps to absent, and
`handshake_age_sec` is present exactly when `latest_handshake > 0`, in
which case it equals `now - latest_handshake` as a raw (possibly
negative) integer, never clamped. -/
theorem claim_C4_peer_field_semantics (now : Int) (l : List Char)
    (f0 f2 f3 f4 f5 f6 f7 : List Char)
    (h0 : (splitSep '\t' l)[0]? = some f0)
    (h2 : (splitSep '\t' l)[2]? = some f2)
    (h3 : (splitSep '\t' l)[3]? = some f3)
    (h4 : (splitSep '\t' l)[4]? = some f4)
    (h5 : (splitSep '\t' l)[5]? = some f5)
    (h6 : (splitSep '\t' l)[6]? = some f6)
    (h7 : (splitSep '\t' l)[7]? = some f7) :
    ∃ peer, parsePeerLine now l = some peer ∧
      peer.peer = f0 ∧
      (f2 = noneTok → peer.endpoint = []) ∧
      (f2 ≠ noneTok → peer.endpoint = f2) ∧
      (f3 = noneTok → peer.allowed_ips = []) ∧
      (f3 ≠ noneTok → peer.allowed_ips = f3) ∧
      (isdigitS f4 = true → peer.latest_handshake = parseNat f4) ∧
      (isdigitS f4 = false → peer.latest_handshake = 0) ∧
      (isdigitS f5 = true → peer.transfer_rx = parseNat f5) ∧
      (isdigitS f5 = false → peer.transfer_rx = 0) ∧
      (isdigitS f6 = true → peer.transfer_tx = parseNat f6) ∧
      (isdigitS f6 = false → peer.transfer_tx = 0) ∧
      (pyNum f7 = 0 → peer.persistent_keepalive = none) ∧
      (pyNum f7 ≠ 0 → peer.persistent_keepalive = some (pyNum f7)) ∧
      (0 < peer.latest_handshake →
        peer.handshake_age_sec = some (now - (peer.latest_handshake : Int))) ∧
      (peer.latest_handshake = 0 → peer.handshake_age_sec = none) := by
  refine
    ⟨{ peer := f0,
       endpoint := if f2 = noneTok then [] else f2,
       allowed_ips := if f3 = noneTok then [] else f3,
       latest_handshake := pyNum f4,
       handshake_age_sec := if pyNum f4 ≠ 0 then some (now - (pyNum f4 : Int)) else none,
       transfer_rx := pyNum f5,
       transfer_tx := pyNum f6,
       persistent_keepalive := if pyNum f7 = 0 then none else some (pyNum f7) },
     by simp only [parsePeerLine, h0, h2, h3, h4, h5, h6, h7], rfl,
     ?_, ?_, ?_, ?_, ?_, ?_, ?_, ?_, ?_, ?_, ?_, ?_, ?_, ?_⟩
  · intro h; show (if f2 = noneTok then [] else f2) = []; rw [if_pos h]
  · intro h; show (if f2 = noneTok then [] else f2) = f2; rw [if_neg h]
  · intro h; show (if f3 = noneTok then [] else f3) = []; rw [if_pos h]
  · intro h; show (if f3 = noneTok then [] else f3) = f3; rw [if_neg h]
  · intro h; show pyNum f4 = parseNat f4; rw [pyNum, if_pos h]
  · intro h; show pyNum f4 = 0; rw [pyNum, if_neg (by simp [h])]
  · intro h; show pyNum f5 = parseNat f5; rw [pyNum, if_pos h]
  · intro h; show pyNum f5 = 0; rw [pyNum, if_neg (by simp [h])]
  · intro h; show pyNum f6 = parseNat f6; rw [pyNum, if_pos h]
  · intro h; show pyNum f6 = 0; rw [pyNum, if_neg (by simp [h])]
  · intro h
    show (if pyNum f7 = 0 then none else some (pyNum f7)) = none
    rw [if_pos h]
  · intro h
    show (if pyNum f7 = 0 then none else some (pyNum f7)) = some (pyNum f7)
    rw [if_neg h]
  · intro h
    have h' : 0 < pyNum f4 := h
    show (if pyNum f4 ≠ 0 then some (now - (pyNum f4 : Int)) else none) =
      some (now - (pyNum f4 : Int))
    rw [if_pos (by omega)]
  · intro h
    show (if pyNum f4 ≠ 0 then some (now - (pyNum f4 : Int)) else none) = none
    have h0 : pyNum f4 = 0 := h
    rw [if_neg (by omega)]

theorem claim_C4_witness :
    ((splitSep '\t' "peerPub\t\t(none)\t10.0.0.2/32\t0\t100\t200\t0".data)[0]? =
      some "peerPub".data) ∧
    (∃ peer, parsePeerLine 1000 "peerPub\t\t(none)\t10.0.0.2/32\t0\t100\t200\t0".data =
        some peer ∧
      peer.peer = "peerPub".data ∧
      ("(none)".data = noneTok → peer.endpoint = []) ∧
      ("(none)".data ≠ noneTok → peer.endpoint = "(none)".data) ∧
      ("10.0.0.2/32".data = noneTok → peer.allowed_ips = []) ∧
      ("10.0.0.2/32".data ≠ noneTok → peer.allowed_ips = "10.0.0.2/32".data) ∧
      (isdigitS "0".data = true → peer.latest_handshake = parseNat "0".data) ∧
      (isdigitS "0".data = false → peer.latest_handshake = 0) ∧
      (isdigitS "100".data = true → peer.transfer_rx = parseNat "100".data) ∧
      (isdigitS "100".data = false → peer.transfer_rx = 0) ∧
      (isdigitS "200".data = true → peer.transfer_tx = parseNat "200".data) ∧
      (isdigitS "200".data = false → peer.transfer_tx = 0) ∧
      (pyNum "0".data = 0 → peer.persistent_keepalive = none) ∧
      (pyNum "0".data ≠ 0 → peer.persistent_keepalive = some (pyNum "0".data)) ∧
      (0 < peer.latest_handshake →
        peer.handshake_age_sec = some (1000 - (peer.latest_handshake : Int))) ∧
      (peer.latest_handshake = 0 → peer.handshake_age_sec = none)) :=
  ⟨by decide,
   claim_C4_peer_field_semantics 1000 _ _ _ _ _ _ _ _
     (by decide) (by decide) (by decide) (by decide) (by decide) (by decide)
     (by decide)⟩

/-- C5: a malformed peer line (too few tab-separated fields, so that an
index access raises) is skipped individually: the parsed peer list equals
the `filterMap` of all peer lines, which drops exactly the malformed ones
and keeps the well-formed ones in original dump order. -/
theorem claim_C5_malformed_line_skipped (now : Int) (l0 bad : List Char)
    (pre post : List (List Char))
    (hne : ∀ l ∈ l0 :: (pre ++ bad :: post), l ≠ [])
    (hnb : ∀ l ∈ l0 :: (pre ++ bad :: post), ∀ c ∈ l, isLineBreak c = false)
    (hbl : ∀ l ∈ l0 :: (pre ++ bad :: post), l.all isPySpace = false)
    (hbad : (splitSep '\t' bad).length < 8) :
    parsePeerLine now bad = none ∧
    (vpn_parse (joinNl (l0 :: (pre ++ bad :: post))) now).peers =
      (pre ++ bad :: post).filterMap (parsePeerLine now) ∧
    (vpn_parse (joinNl (l0 :: (pre ++ bad :: post))) now).peers =
      (pre ++ post).filterMap (parsePeerLine now) := by
  have hnone : parsePeerLine now bad = none := parsePeerLine_short hbad
  have hsplit := pySplitlines_joinNl (l0 :: (pre ++ bad :: post)) hne hnb
  have hfilter : (l0 :: (pre ++ bad :: post)).filter (fun l => !l.all isPySpace) =
      l0 :: (pre ++ bad :: post) := by
    rw [List.filter_eq_self]
    intro a ha
    simp [hbl a ha]
  have hp : (vpn_parse (joinNl (l0 :: (pre ++ bad :: post))) now).peers =
      (pre ++ bad :: post).filterMap (parsePeerLine now) := by
    simp only [vpn_parse, hsplit, hfilter]
  refine ⟨hnone, hp, ?_⟩
  rw [hp, List.filterMap_append, List.filterMap_append,
    List.filterMap_cons_none hnone]

theorem claim_C5_witness :
    parsePeerLine 50 "A\tB".data = none ∧
    (vpn_parse (joinNl ["i\tp\t1\t0".data, "pA\tk\te\ta\t1\t2\t3\t4".data,
        "A\tB".data, "pB\tk\te\ta\t5\t6\t7\t8".data]) 50).peers =
      (["pA\tk\te\ta\t1\t2\t3\t4".data, "A\tB".data,
        "pB\tk\te\ta\t5\t6\t7\t8".data] : List (List Char)).filterMap
        (parsePeerLine 50) ∧
    (vpn_parse (joinNl ["i\tp\t1\t0".data, "pA\tk\te\ta\t1\t2\t3\t4".data,
        "A\tB".data, "pB\tk\te\ta\t5\t6\t7\t8".data]) 50).peers =
      (["pA\tk\te\ta\t1\t2\t3\t4".data,
        "pB\tk\te\ta\t5\t6\t7\t8".data] : List (List Char)).filterMap
        (parsePeerLine 50) :=
  claim_C5_malformed_line_skipped 50 "i\tp\t1\t0".data "A\tB".data
    ["pA\tk\te\ta\t1\t2\t3\t4".data] ["pB\tk\te\ta\t5\t6\t7\t8".data]
    (by decide) (by decide) (by decide) (by decide)

/-- C9, counterexample: the claim quantifies over all dumps differing only
in the private-key field, but when the rest of line 0 is blank, a blank
private key makes line 0 entirely whitespace, so it is dropped by the
blank-line filter and the second line is parsed as the interface record:
the dumps `" \t\nA\tB"` and `"x\t\nA\tB"` differ only in the private-key
field (`" "` vs `"x"`, both tab-free and break-free) yet parse
differently. -/
theorem claim_C9_counterexample :
    (∀ c ∈ (" ".data : List Char), c ≠ '\t' ∧ isLineBreak c = false) ∧
    (∀ c ∈ ("x".data : List Char), c ≠ '\t' ∧ isLineBreak c = false) ∧
    vpn_parse (" ".data ++ '\t' :: "\nA\tB".data) 0 ≠
      vpn_parse ("x".data ++ '\t' :: "\nA\tB".data) 0 := by
  refine ⟨by decide, by decide, by decide⟩

/-- C9, amended: the interface record retains only `public_key`
(field index 1) and `listen_port` (field index 2, parsed as an integer,
absent if non-numeric) of the dump's first line, and the private key
(field index 0) is never exposed: two dumps that differ only in the value
of the private-key field parse identically, provided the two private-key
values are both non-blank (so that line 0 survives the blank-line filter
in both dumps; a blank key in an otherwise blank line 0 is the one
exception, see the counterexample). -/
theorem claim_C9_private_key_not_exposed (now : Int) (pk1 pk2 rest : List Char)
    (h1t : ∀ c ∈ pk1, c ≠ '\t') (h1b : ∀ c ∈ pk1, isLineBreak c = false)
    (h1s : pk1.all isPySpace = false)
    (h2t : ∀ c ∈ pk2, c ≠ '\t') (h2b : ∀ c ∈ pk2, isLineBreak c = false)
    (h2s : pk2.all isPySpace = false) :
    vpn_parse (pk1 ++ '\t' :: rest) now = vpn_parse (pk2 ++ '\t' :: rest) now ∧
    (∀ l : List Char, parseIface l =
      { public_key := (splitSep '\t' l).getD 1 []
        listen_port := match (splitSep '\t' l)[2]? with
          | some s => if isdigitS s then some (parseNat s) else none
          | none => none }) := by
  obtain ⟨fl, rls, hL⟩ := pySplitlines_tab_cons rest
  have key : ∀ pk : List Char, (∀ c ∈ pk, c ≠ '\t') →
      (∀ c ∈ pk, isLineBreak c = false) → pk.all isPySpace = false →
      vpn_parse (pk ++ '\t' :: rest) now =
        { running := true
          iface := some (parseIface ('\t' :: fl))
          peers := (rls.filter (fun l => !l.all isPySpace)).filterMap
            (parsePeerLine now) } := by
    intro pk htab hbrk hsp
    have hlines : (pySplitlines (pk ++ '\t' :: rest)).filter
        (fun l => !l.all isPySpace) =
        (pk ++ '\t' :: fl) :: rls.filter (fun l => !l.all isPySpace) := by
      rw [pySplitlines_prepend_nosep pk hbrk ('\t' :: rest), hL]
      show List.filter _ ((pk ++ ('\t' :: fl)) :: rls) = _
      rw [List.filter_cons, if_pos (by simp [List.all_append, hsp])]
    have hsp2 : splitSep '\t' ('\t' :: fl) = [] :: splitSep '\t' fl := by
      simp [splitSep, splitSepAux]
    have hif : parseIface (pk ++ '\t' :: fl) = parseIface ('\t' :: fl) := by
      unfold parseIface
      rw [splitSep_nosep_tab pk fl htab, hsp2]
      rfl
    simp only [vpn_parse, hlines]
    rw [hif]
  exact ⟨(key pk1 h1t h1b h1s).trans (key pk2 h2t h2b h2s).symm, fun l => rfl⟩

theorem claim_C9_witness :
    (∀ c ∈ ("PRIV1".data : List Char), c ≠ '\t') ∧
    (∀ c ∈ ("PRIV1".data : List Char), isLineBreak c = false) ∧
    ("PRIV1".data : List Char).all isPySpace = false ∧
    (∀ c ∈ ("PRIV2".data : List Char), c ≠ '\t') ∧
    (∀ c ∈ ("PRIV2".data : List Char), isLineBreak c = false) ∧
    ("PRIV2".data : List Char).all isPySpace = false ∧
    vpn_parse ("PRIV1".data ++ '\t' :: "pub\t51820\t0\npA\tk\te\ta\t1\t2\t3\t4".data) 7 =
      vpn_parse ("PRIV2".data ++ '\t' :: "pub\t51820\t0\npA\tk\te\ta\t1\t2\t3\t4".data) 7 :=
  ⟨by decide, by decide, by decide, by decide, by decide, by decide,
   (claim_C9_private_key_not_exposed 7 "PRIV1".data "PRIV2".data
     "pub\t51820\t0\npA\tk\te\ta\t1\t2\t3\t4".data
     (by decide) (by decide) (by decide) (by decide) (by decide) (by decide)).1⟩

end VPSDash
